import Mathlib

/-!
Verification of the metadata extraction and aggregation pipeline.

This file gives a shallow embedding of the core of the pipeline:

* `scripts/extract-metadata.js` — AST-based extraction of imports, calls,
  components, file structure, content hashing, package attribution and
  pattern detection (`extractImports`, `extractCalls`, `analyzeFileStructure`,
  `calculateAnimationHash`, `analyzeAnimation`, `categorizeByPackage`,
  `detectPatterns`);
* the stats generator (`generateStats` with `normalizeComponentName`) that
  folds all per-project metadata documents into corpus-wide frequency maps
  and reverse indices.

Strings are modelled by Lean `String`; all character-level operations
(lexicographic comparison, prefix and substring tests, splitting) are defined
on `String.data` so every definition evaluates by kernel reduction.
JavaScript `Set`s are modelled as insertion-ordered duplicate-free lists
(`insertUniq`), JavaScript objects / `Map`s as insertion-ordered association
lists (`setA` / `lookupA`), matching JS enumeration-order semantics.
-/

/-! ### Character-list string primitives -/

/-- Lexicographic comparison of character lists (code-unit order, as used by
the default JavaScript `Array.sort` on ASCII strings). -/
def chLe : List Char → List Char → Bool
  | [], _ => true
  | _ :: _, [] => false
  | a :: as, b :: bs => if a < b then true else if b < a then false else chLe as bs

/-- Boolean prefix test on character lists. -/
def prefB : List Char → List Char → Bool
  | [], _ => true
  | _ :: _, [] => false
  | a :: as, b :: bs => a == b && prefB as bs

/-- Boolean substring (infix) test on character lists, the model of
JavaScript `String.prototype.includes`. -/
def infixB (needle : List Char) : List Char → Bool
  | [] => prefB needle []
  | c :: cs => prefB needle (c :: cs) || infixB needle cs

/-- Model of JavaScript `s.startsWith(pre)`. -/
def strStarts (s pre : String) : Bool := prefB pre.data s.data

/-- Model of JavaScript `s.includes(sub)`. -/
def strIncl (s sub : String) : Bool := infixB sub.data s.data

/-- Model of JavaScript `String.prototype.split` with a
single-character separator (so `split` of the empty string is `[""]`). -/
def splitCh (sep : Char) : List Char → List (List Char)
  | [] => [[]]
  | c :: cs =>
    let r := splitCh sep cs
    if c == sep then [] :: r
    else
      match r with
      | [] => [[c]]
      | h :: t => (c :: h) :: t

/-- String ordering used for all sorts, as a `Prop`-valued relation. -/
def sRel (a b : String) : Prop := chLe a.data b.data = true

instance : DecidableRel sRel := fun a b => inferInstanceAs (Decidable (chLe a.data b.data = true))

/-- Ordering of `(relative path, content)` pairs by path, the comparison used
by `allFiles.sort()` in `calculateAnimationHash`. -/
def pRel (a b : String × String) : Prop := chLe a.1.data b.1.data = true

instance : DecidableRel pRel := fun a b => inferInstanceAs (Decidable (chLe a.1.data b.1.data = true))

/-- Model of `Array.from(set).sort()` on string arrays. -/
def sortStr (l : List String) : List String := List.insertionSort sRel l

/-! ### Sets and association lists (JS objects / Maps) -/

/-- Model of `Set.add`: append if not already present (JS `Set` keeps insertion order,
`Array.from` enumerates in that order). -/
def insertUniq (x : String) (l : List String) : List String :=
  if x ∈ l then l else l ++ [x]

/-- First-match lookup in an association list, modelling `obj[k]` on a JS
object with string keys. -/
def lookupA {β : Type} : List (String × β) → String → Option β
  | [], _ => none
  | e :: rest, k => if e.1 = k then some e.2 else lookupA rest k

/-- Model of `obj[k] = v`: replace the binding in place if the key exists, else append
(JS string-keyed objects preserve insertion order). -/
def setA {β : Type} : List (String × β) → String → β → List (String × β)
  | [], k, v => [(k, v)]
  | e :: rest, k, v => if e.1 = k then (k, v) :: rest else e :: setA rest k v

/-- Model of `obj[k] = (obj[k] || []).concat([v])`: push onto the array at a key. -/
def pushAssoc (m : List (String × List String)) (k v : String) : List (String × List String) :=
  setA m k ((lookupA m k).getD [] ++ [v])

/-- Add `v` to the `Set` stored at key `k`, creating the set if absent. -/
def addUniqAssoc (m : List (String × List String)) (k v : String) : List (String × List String) :=
  setA m k (insertUniq v ((lookupA m k).getD []))

/-- Merge one file's per-key lists into the aggregated per-key sets
(the `Object.keys(...).forEach` merging loops of `analyzeAnimation`). -/
def mergeAssoc (base add : List (String × List String)) : List (String × List String) :=
  add.foldl
    (fun m e =>
      e.2.foldl (fun m x => addUniqAssoc m e.1 x)
        (if (lookupA m e.1).isSome then m else setA m e.1 []))
    base

/-! ### HashComputer (`calculateAnimationHash`)

A project is a list of `(relative path, file content)` pairs.  The script
sorts the path list, then streams `relativePath` followed by the file content
for each file, in sorted order, into one SHA-256 digest.  The digest is a
function of exactly this byte stream, so the stream itself is the object of
the theorems: two streams are equal iff the digest calls receive identical
input (and for the fixed collision-resistant hash, digest equality is stream
equality modulo cryptographic collision). -/

/-- Sort the `(relative path, content)` pairs by path (`allFiles.sort()`). -/
def sortPairs (l : List (String × String)) : List (String × String) :=
  List.insertionSort pRel l

/-- The exact character stream fed to the incremental hash:
`hash.update(relativePath); hash.update(content)` for each file in sorted
order.  `content_hash` is the hex digest of this stream. -/
def hashStream (files : List (String × String)) : List Char :=
  (sortPairs files).foldl (fun s e => s ++ e.1.data ++ e.2.data) []

/-! ### StatsAggregator (`generateStats` with `normalizeComponentName`)

A per-project metadata document, as read back from `data/meta/<slug>.json`,
restricted to the fields the aggregation loops consume. -/

structure MetaDoc where
  slug : String
  packages : List String
  hooks : List String
  functions : List String
  components : List String
  patterns : List String
  techniques : List String
deriving DecidableEq

/-- Model of `normalizeComponentName`: strip a `Touchable.` prefix, else an
`Animated.` prefix, else (for any other dotted name) keep the last segment. -/
def normalizeComponentName (c : String) : String :=
  if strStarts c "Touchable." then String.mk (c.data.drop "Touchable.".data.length)
  else if strStarts c "Animated." then String.mk (c.data.drop "Animated.".data.length)
  else if c.data.contains '.' then String.mk (((splitCh '.' c.data).getLast?).getD c.data)
  else c

/-- The aggregate statistics document: six frequency maps and the four
reverse indices.  The final `Object.fromEntries(....sort(...))` step in the
script only reorders object keys by descending count; it does not change any
count or any index, so the maps are modelled directly as functions. -/
structure StatsAgg where
  packages : String → Nat
  hooks : String → Nat
  functions : String → Nat
  components : String → Nat
  patterns : String → Nat
  techniques : String → Nat
  packages_index : String → List String
  hooks_index : String → List String
  patterns_index : String → List String
  techniques_index : String → List String

/-- Model of `stats.cat[x] = (stats.cat[x] || 0) + 1` for each `x` in the list. -/
def bumpAll (m : String → Nat) (xs : List String) : String → Nat :=
  xs.foldl (fun m x => Function.update m x (m x + 1)) m

/-- Model of `stats.cat_index[x].push(slug)` for each `x` in the list. -/
def indexAll (m : String → List String) (xs : List String) (slug : String) : String → List String :=
  xs.foldl (fun m x => Function.update m x (m x ++ [slug])) m

/-- The per-document unique set of normalized component names
(`uniqueComponents` in the script). -/
def uniqComps (d : MetaDoc) : List String :=
  (d.components.map normalizeComponentName).foldl (fun l x => insertUniq x l) []

/-- Folding one metadata document into the aggregate (the body of the
`metaFiles.forEach` loop, restricted to the frequency maps and indices). -/
def foldDoc (s : StatsAgg) (d : MetaDoc) : StatsAgg :=
  { packages := bumpAll s.packages d.packages
    hooks := bumpAll s.hooks d.hooks
    functions := bumpAll s.functions d.functions
    components := bumpAll s.components (uniqComps d)
    patterns := bumpAll s.patterns d.patterns
    techniques := bumpAll s.techniques d.techniques
    packages_index := indexAll s.packages_index d.packages d.slug
    hooks_index := indexAll s.hooks_index d.hooks d.slug
    patterns_index := indexAll s.patterns_index d.patterns d.slug
    techniques_index := indexAll s.techniques_index d.techniques d.slug }

/-- The empty aggregate (`stats` object before the loop). -/
def initStats : StatsAgg :=
  ⟨fun _ => 0, fun _ => 0, fun _ => 0, fun _ => 0, fun _ => 0, fun _ => 0,
   fun _ => [], fun _ => [], fun _ => [], fun _ => []⟩

/-- Model of `generateStats`: fold every metadata document into the aggregate. -/
def generateStats (docs : List MetaDoc) : StatsAgg :=
  docs.foldl foldDoc initStats

/-! ### Syntax trees (`SourceParser` output)

A minimal TypeScript AST carrying exactly the node kinds the extractor
inspects (`isImportDeclaration`, `isCallExpression`, `isIdentifier`,
`isPropertyAccessExpression`, `isJsxOpeningElement` /
`isJsxSelfClosingElement`) plus a generic sibling/sequence node.  Sibling
lists are encoded with binary `seq` / `empty` nodes so that every traversal
is plain structural recursion; `ts.forEachChild` order (callee before
arguments, tag before attributes) is preserved. -/

/-- The bindings of one import clause: `import { a, b } from ...` (each
element with its `isTypeOnly` flag) or `import * as X from ...`. -/
inductive ImportBindings where
  | named (elems : List (String × Bool))
  | nspaceB (name : String)
deriving DecidableEq

/-- An import clause: optional default binding, optional named/namespace
bindings, and the clause-level `isTypeOnly` flag (`import type { ... }`). -/
structure ImportClause where
  defaultName : Option String
  bindings : Option ImportBindings
  isTypeOnly : Bool
deriving DecidableEq

inductive TsNode where
  | ident (name : String)
  | propAccess (obj : TsNode) (prop : String)
  | call (callee : TsNode) (args : TsNode)
  | jsx (tag : TsNode)
  | importDecl (spec : String) (clause : Option ImportClause)
  | seq (a b : TsNode)
  | empty
deriving DecidableEq

/-! ### CallExtractor (`extractCalls`) -/

/-- The fixed exclusion set (`EXCLUDED_FUNCTIONS`), transcribed verbatim. -/
def EXCLUDED_FUNCTIONS : List String :=
  ["create",
   "map", "filter", "reduce", "forEach", "find", "some", "every", "includes",
   "push", "pop", "shift", "unshift", "splice", "slice", "concat",
   "floor", "ceil", "round", "abs", "min", "max", "sqrt", "pow", "random",
   "get", "set", "has", "delete", "clear",
   "log", "warn", "error", "info", "debug",
   "setTimeout", "setInterval", "clearTimeout", "clearInterval",
   "require", "import", "export",
   "toString", "valueOf", "toJSON",
   "length", "size", "count",
   "memo", "forwardRef", "lazy", "render",
   "flatten", "entries", "keys", "values",
   "onPress", "onChange", "onLayout", "onSubmit", "renderItem"]

/-- Mutable state of the `extractCalls` visitor: the three result sets plus
the namespace→methods map. -/
structure CallsAcc where
  hooks : List String
  functions : List String
  components : List String
  namespaceCalls : List (String × List String)
deriving DecidableEq

/-- Effect of a call expression whose callee is the plain identifier `n`
(the `ts.isIdentifier(expr)` branch of the visitor). -/
def identCallStep (acc : CallsAcc) (n : String) : CallsAcc :=
  if strStarts n "use" then { acc with hooks := insertUniq n acc.hooks }
  else if strStarts n "with" then { acc with functions := insertUniq n acc.functions }
  else if n ∈ EXCLUDED_FUNCTIONS then acc
  else { acc with functions := insertUniq n acc.functions }

/-- Effect of a call expression whose callee is `ns.prop` with `ns` a plain
identifier: always record `(ns, prop)` in the namespace-call map; then
`Animated.*` becomes a component, other non-excluded methods become
functions under their full dotted name. -/
def propCallStep (acc : CallsAcc) (ns prop : String) : CallsAcc :=
  let acc1 := { acc with namespaceCalls := addUniqAssoc acc.namespaceCalls ns prop }
  if ns = "Animated" then
    { acc1 with components := insertUniq (ns ++ "." ++ prop) acc1.components }
  else if prop ∈ EXCLUDED_FUNCTIONS then acc1
  else { acc1 with functions := insertUniq (ns ++ "." ++ prop) acc1.functions }

/-- Dispatch on the shape of a call expression's callee. -/
def callStep (acc : CallsAcc) : TsNode → CallsAcc
  | .ident n => identCallStep acc n
  | .propAccess (.ident ns) prop => propCallStep acc ns prop
  | _ => acc

/-- Effect of a JSX opening/self-closing element on the component set. -/
def jsxStep (acc : CallsAcc) : TsNode → CallsAcc
  | .ident n => { acc with components := insertUniq n acc.components }
  | .propAccess (.ident l) r => { acc with components := insertUniq (l ++ "." ++ r) acc.components }
  | _ => acc

/-- The recursive visitor of `extractCalls`: process the node, then recurse
into its children in `ts.forEachChild` order. -/
def visitCalls (acc : CallsAcc) : TsNode → CallsAcc
  | .ident _ => acc
  | .propAccess o _ => visitCalls acc o
  | .call c args => visitCalls (visitCalls (callStep acc c) c) args
  | .jsx t => visitCalls (jsxStep acc t) t
  | .importDecl _ _ => acc
  | .seq a b => visitCalls (visitCalls acc a) b
  | .empty => acc

/-- Result of `extractCalls`: the per-file sets as sorted arrays. -/
structure CallsRes where
  hooks : List String
  functions : List String
  components : List String
  namespaceCalls : List (String × List String)
deriving DecidableEq

/-- Model of `extractCalls`: run the visitor from the root, then convert each set to a
sorted array (`Array.from(set).sort()`). -/
def extractCalls (root : TsNode) : CallsRes :=
  let acc := visitCalls ⟨[], [], [], []⟩ root
  ⟨sortStr acc.hooks, sortStr acc.functions, sortStr acc.components,
   acc.namespaceCalls.map (fun e => (e.1, sortStr e.2))⟩

/-! ### ImportExtractor (`extractImports`) -/

/-- Mutable state of the `extractImports` visitor. -/
structure ImportsRes where
  packages : List String
  namedImports : List (String × List String)
  defaultImports : List (String × List String)
  namespaceImports : List (String × List String)
  typeImports : List (String × List String)
deriving DecidableEq

/-- Effect of one `import` declaration: record the module specifier, then a
default binding, then named elements (type-only ones into `typeImports`) or a
namespace binding. -/
def importStep (acc : ImportsRes) (spec : String) (clause : Option ImportClause) : ImportsRes :=
  let acc := { acc with packages := insertUniq spec acc.packages }
  match clause with
  | none => acc
  | some cl =>
    let acc :=
      match cl.defaultName with
      | some n => { acc with defaultImports := pushAssoc acc.defaultImports spec n }
      | none => acc
    match cl.bindings with
    | some (.named elems) =>
      elems.foldl
        (fun acc el =>
          if el.2 || cl.isTypeOnly then
            { acc with typeImports := pushAssoc acc.typeImports spec el.1 }
          else
            { acc with namedImports := pushAssoc acc.namedImports spec el.1 })
        acc
    | some (.nspaceB n) => { acc with namespaceImports := pushAssoc acc.namespaceImports spec n }
    | none => acc

/-- The recursive visitor of `extractImports`: it walks the whole tree, and
only the import declarations contribute. -/
def visitImports (acc : ImportsRes) : TsNode → ImportsRes
  | .ident _ => acc
  | .propAccess o _ => visitImports acc o
  | .call c args => visitImports (visitImports acc c) args
  | .jsx t => visitImports acc t
  | .importDecl spec clause => importStep acc spec clause
  | .seq a b => visitImports (visitImports acc a) b
  | .empty => acc

/-- Model of `extractImports` on one file's syntax tree. -/
def extractImports (root : TsNode) : ImportsRes :=
  visitImports ⟨[], [], [], [], []⟩ root

/-! ### PackageAttributor (`categorizeByPackage`) -/

/-- One entry of `packages_detail`. -/
structure PkgDetail where
  imports : List String
  hooks : List String
  functions : List String
  components : List String
deriving DecidableEq

/-- Update the detail record at a key, leaving the map unchanged when the key
is absent (the script always guards updates with `packageData[pkg]`). -/
def updEntry (m : List (String × PkgDetail)) (k : String) (g : PkgDetail → PkgDetail) :
    List (String × PkgDetail) :=
  m.map (fun e => if e.1 = k then (e.1, g e.2) else e)

/-- Reverse lookup built first-wins from a per-package name map
(`itemToPackage` / `namespaceToPackage`). -/
def firstWins (entries : List (String × List String)) : List (String × String) :=
  entries.foldl
    (fun acc e =>
      e.2.foldl
        (fun acc item => if (lookupA acc item).isSome then acc else acc ++ [(item, e.1)])
        acc)
    []

/-- Attribute one hook via `itemToPackage`. -/
def hookStep (itp : List (String × String)) (m : List (String × PkgDetail)) (h : String) :
    List (String × PkgDetail) :=
  match lookupA itp h with
  | some pkg => updEntry m pkg (fun d => { d with hooks := d.hooks ++ [h] })
  | none => m

/-- Attribute one function via `itemToPackage`. -/
def fnStep (itp : List (String × String)) (m : List (String × PkgDetail)) (f : String) :
    List (String × PkgDetail) :=
  match lookupA itp f with
  | some pkg => updEntry m pkg (fun d => { d with functions := d.functions ++ [f] })
  | none => m

/-- Attribute one namespace's methods via `namespaceToPackage`, appending
each method to that package's function list only if not already present. -/
def nsStep (ntp : List (String × String)) (m : List (String × PkgDetail))
    (e : String × List String) : List (String × PkgDetail) :=
  match lookupA ntp e.1 with
  | some pkg =>
    e.2.foldl
      (fun m fn =>
        updEntry m pkg
          (fun d => if fn ∈ d.functions then d else { d with functions := d.functions ++ [fn] }))
      m
  | none => m

/-- Attribute one component: `Animated.*` goes directly to the fixed
`react-native-reanimated` entry (when present), anything else through
`itemToPackage`. -/
def compStep (itp : List (String × String)) (m : List (String × PkgDetail)) (c : String) :
    List (String × PkgDetail) :=
  if strStarts c "Animated." then
    updEntry m "react-native-reanimated" (fun d => { d with components := d.components ++ [c] })
  else
    match lookupA itp c with
    | some pkg => updEntry m pkg (fun d => { d with components := d.components ++ [c] })
    | none => m

/-- Model of `categorizeByPackage`: initialize one detail record per (non-relative)
package, build the two first-wins reverse lookups, then attribute hooks,
functions, namespace calls and components. -/
def categorizeByPackage (packages : List String)
    (namedImports namespaceImports namespaceCalls : List (String × List String))
    (hooks functions components : List String) : List (String × PkgDetail) :=
  let pd0 := packages.foldl
    (fun m pkg =>
      if strStarts pkg "." || strStarts pkg "/" then m
      else setA m pkg ⟨(lookupA namedImports pkg).getD [], [], [], []⟩)
    []
  let itemToPackage := firstWins namedImports
  let namespaceToPackage := firstWins namespaceImports
  let m1 := hooks.foldl (hookStep itemToPackage) pd0
  let m2 := functions.foldl (fnStep itemToPackage) m1
  let m3 := namespaceCalls.foldl (nsStep namespaceToPackage) m2
  components.foldl (compStep itemToPackage) m3

/-! ### PatternDetector (`detectPatterns`) -/

/-- One rule-table entry: emit the fixed tag when the condition holds. -/
def tagIf (p : Prop) [Decidable p] (t : String) : List String :=
  if p then [t] else []

/-- Model of `detectPatterns`: the fixed ordered rule table over set membership.
Output order is emission order, exactly as in the script. -/
def detectPatterns (hooks functions components : List String) : List String × List String :=
  let patterns : List String :=
    tagIf ("useSharedValue" ∈ hooks) "shared-value-state"
    ++ tagIf ("useAnimatedStyle" ∈ hooks) "animated-styling"
    ++ tagIf ("useDerivedValue" ∈ hooks) "derived-computation"
    ++ tagIf ("useAnimatedScrollHandler" ∈ hooks) "scroll-animation"
    ++ tagIf ("useAnimatedGestureHandler" ∈ hooks) "gesture-animation"
    ++ tagIf ("useAnimatedReaction" ∈ hooks) "animated-reaction"
    ++ tagIf ("withTiming" ∈ functions) "timing-animation"
    ++ tagIf ("withSpring" ∈ functions) "spring-animation"
    ++ tagIf ("withDelay" ∈ functions) "delayed-animation"
    ++ tagIf ("withRepeat" ∈ functions) "repeating-animation"
    ++ tagIf ("withSequence" ∈ functions) "sequence-animation"
    ++ tagIf ("interpolate" ∈ functions) "value-interpolation"
    ++ tagIf ("interpolateColor" ∈ functions) "color-interpolation"
    ++ tagIf ("useSharedValue" ∈ hooks ∧ "useAnimatedStyle" ∈ hooks) "reactive-styling-pattern"
    ++ tagIf ("useDerivedValue" ∈ hooks ∧ "withDelay" ∈ functions) "staggered-derived-values"
    ++ tagIf ("useImperativeHandle" ∈ hooks) "imperative-animation-api"
    ++ tagIf (components.any (fun c => strIncl c "Canvas") = true) "skia-graphics"
  let techniques : List String :=
    tagIf ("useAnimatedScrollHandler" ∈ hooks) "scroll-based-animation"
    ++ tagIf ("useAnimatedGestureHandler" ∈ hooks) "gesture-based-animation"
    ++ tagIf ("useAnimatedReaction" ∈ hooks) "reactive-side-effects"
    ++ tagIf ("withTiming" ∈ functions) "timing-based-transitions"
    ++ tagIf ("withSpring" ∈ functions) "spring-physics"
    ++ tagIf ("withDelay" ∈ functions) "staggered-timing"
    ++ tagIf ("withRepeat" ∈ functions) "loop-animations"
    ++ tagIf ("withSequence" ∈ functions) "sequential-animations"
    ++ tagIf ("interpolate" ∈ functions) "value-mapping"
    ++ tagIf ("interpolateColor" ∈ functions) "color-transitions"
    ++ tagIf ("useDerivedValue" ∈ hooks ∧ "withDelay" ∈ functions) "character-level-staggering"
    ++ tagIf ("useImperativeHandle" ∈ hooks) "ref-based-control"
    ++ tagIf (components.any (fun c => strIncl c "Canvas") = true) "canvas-rendering"
    ++ tagIf (components.any (fun c => strIncl c "Blur") = true) "blur-effects"
    ++ tagIf (components.any (fun c => strIncl c "MaskedView") = true) "masking-effects"
    ++ tagIf ("useAnimatedStyle" ∈ hooks) "transform-animations"
  (patterns, techniques)

/-! ### AnimationAnalyzer (`analyzeAnimation`)

The analyzable core of the per-project metadata document: the aggregated
sets, the filtered import maps that feed `packages_detail`, the attribution
result and the detected patterns.  (Slug, timestamp, file counts, package
versions, file structure and the content hash are handled by the separate
components modelled above and are not repeated here.) -/

structure AnimMeta where
  packages : List String
  namedImports : List (String × List String)
  namespaceImports : List (String × List String)
  namespaceCalls : List (String × List String)
  hooks : List String
  functions : List String
  components : List String
  packages_detail : List (String × PkgDetail)
  patterns : List String
  techniques : List String
deriving DecidableEq

/-- Per-file aggregation state of `analyzeAnimation`. -/
structure AggData where
  packages : List String
  namedImports : List (String × List String)
  namespaceImports : List (String × List String)
  hooks : List String
  functions : List String
  components : List String
  namespaceCalls : List (String × List String)

/-- Fold one parsed file into the aggregation state (the body of the
`files.forEach` loop of `analyzeAnimation`). -/
def aggFile (agg : AggData) (f : TsNode) : AggData :=
  let imps := extractImports f
  let cs := extractCalls f
  { packages := imps.packages.foldl (fun l p => insertUniq p l) agg.packages
    namedImports := mergeAssoc agg.namedImports imps.namedImports
    namespaceImports := mergeAssoc agg.namespaceImports imps.namespaceImports
    hooks := cs.hooks.foldl (fun l x => insertUniq x l) agg.hooks
    functions := cs.functions.foldl (fun l x => insertUniq x l) agg.functions
    components := cs.components.foldl (fun l x => insertUniq x l) agg.components
    namespaceCalls := mergeAssoc agg.namespaceCalls cs.namespaceCalls }

/-- Model of `analyzeAnimation` on a project given as the list of its parsed source
files, in enumeration order. -/
def analyzeAnimation (files : List TsNode) : AnimMeta :=
  let agg := files.foldl aggFile ⟨[], [], [], [], [], [], []⟩
  let packages := sortStr (agg.packages.filter (fun p => !(strStarts p ".") && !(strStarts p "/")))
  let hooks := sortStr agg.hooks
  let functions := sortStr agg.functions
  let components := sortStr agg.components
  let namedImports := agg.namedImports.filterMap
    (fun e => if strStarts e.1 "." || strStarts e.1 "/" then none else some (e.1, sortStr e.2))
  let namespaceImports := agg.namespaceImports.filterMap
    (fun e => if strStarts e.1 "." || strStarts e.1 "/" then none else some (e.1, sortStr e.2))
  let namespaceCalls := agg.namespaceCalls.map (fun e => (e.1, sortStr e.2))
  let detail := categorizeByPackage packages namedImports namespaceImports namespaceCalls
    hooks functions components
  let pt := detectPatterns hooks functions components
  ⟨packages, namedImports, namespaceImports, namespaceCalls, hooks, functions, components,
   detail, pt.1, pt.2⟩

/-! ### FileStructureClassifier (`analyzeFileStructure`)

A discovered source file is given by its path relative to the project root
(`path.relative(basePath, file)`), with `/` as separator. -/

/-- Split a relative path into its `/`-separated segments. -/
def pathSegs (p : String) : List (List Char) := splitCh '/' p.data

/-- Join path segments with `/` (for `path.dirname`). -/
def joinSlash : List (List Char) → List Char
  | [] => []
  | [x] => x
  | x :: xs => x ++ '/' :: joinSlash xs

/-- Model of `path.basename`: the last `/`-segment. -/
def baseName (p : String) : String :=
  String.mk ((pathSegs p).getLast?.getD p.data)

/-- Model of `path.dirname` on a relative path: `"."` for a root-level file, else the
path without its last segment. -/
def dirName (p : String) : String :=
  match (pathSegs p).dropLast with
  | [] => "."
  | segs => String.mk (joinSlash segs)

/-- The categorized file structure (`structure` object of
`analyzeFileStructure`; `assets` is declared by the script but never
filled). -/
structure FileStructure where
  entry : Option String
  components : List String
  hooks : List String
  utils : List String
  types : List String
  constants : List String
  assets : List String
  other : List String
deriving DecidableEq

/-- The file categories, in rule order. -/
inductive FileCat where
  | entry | components | hooks | utils | types | constants | other
deriving DecidableEq

/-- The classification chain of `analyzeFileStructure`, per file: this is the
first-matching-rule priority order as implemented, where rules (5) and (6)
test the *filename* for the substrings `"types.ts"` and `"constants.ts"`. -/
def fileCategory (p : String) : FileCat :=
  let fileName := baseName p
  let dirN := dirName p
  if fileName = "index.tsx" ∨ fileName = "index.ts" then .entry
  else if strIncl dirN "components" = true ∨ dirN = "." then .components
  else if strIncl dirN "hooks" = true then .hooks
  else if strIncl dirN "utils" = true then .utils
  else if strIncl dirN "types" = true ∨ strIncl fileName "types.ts" = true then .types
  else if strIncl dirN "constants" = true ∨ strIncl fileName "constants.ts" = true then .constants
  else .other

/-- The classification chain exactly as claim C8 words it: rules (5) and (6)
test the filename for the substrings `"types"` and `"constants"`. -/
def claimC8Category (p : String) : FileCat :=
  let fileName := baseName p
  let dirN := dirName p
  if fileName = "index.tsx" ∨ fileName = "index.ts" then .entry
  else if strIncl dirN "components" = true ∨ dirN = "." then .components
  else if strIncl dirN "hooks" = true then .hooks
  else if strIncl dirN "utils" = true then .utils
  else if strIncl dirN "types" = true ∨ strIncl fileName "types" = true then .types
  else if strIncl dirN "constants" = true ∨ strIncl fileName "constants" = true then .constants
  else .other

/-- Record one file in its category (the body of the `files.forEach` loop of
`analyzeFileStructure`: `structure.entry` is overwritten, every other
category is pushed). -/
def classifyStep (st : FileStructure) (p : String) : FileStructure :=
  match fileCategory p with
  | .entry => { st with entry := some p }
  | .components => { st with components := st.components ++ [p] }
  | .hooks => { st with hooks := st.hooks ++ [p] }
  | .utils => { st with utils := st.utils ++ [p] }
  | .types => { st with types := st.types ++ [p] }
  | .constants => { st with constants := st.constants ++ [p] }
  | .other => { st with other := st.other ++ [p] }

/-- Model of `analyzeFileStructure` on the project's relative paths in enumeration
order. -/
def analyzeFileStructure (files : List String) : FileStructure :=
  files.foldl classifyStep ⟨none, [], [], [], [], [], [], []⟩

/-! ### Concrete inputs used by the claim theorems -/

/-- Classification of a plain-identifier call, transcribed from the wording
of claim C2 / spec §4.3: `use…` is a hook (and never a function); otherwise
`with…` is a function unconditionally, even if the name is in the exclusion
set; otherwise an excluded name is recorded nowhere; otherwise the name is a
function. -/
def specIdentCallEffect (acc : CallsAcc) (n : String) : CallsAcc :=
  if strStarts n "use" then { acc with hooks := insertUniq n acc.hooks }
  else if strStarts n "with" then { acc with functions := insertUniq n acc.functions }
  else if n ∈ EXCLUDED_FUNCTIONS then acc
  else { acc with functions := insertUniq n acc.functions }

/-- Names of the call expressions with a plain-identifier callee occurring in
a tree, in traversal order. -/
def calleeIdent : TsNode → List String
  | .ident n => [n]
  | _ => []

def identCallees : TsNode → List String
  | .ident _ => []
  | .propAccess o _ => identCallees o
  | .call c args => calleeIdent c ++ identCallees c ++ identCallees args
  | .jsx t => identCallees t
  | .importDecl _ _ => []
  | .seq a b => identCallees a ++ identCallees b
  | .empty => []

/-- The single file of the `demo-a` scenario (claim C9): it imports
`{ useSharedValue, withTiming }` from `lib-x`, calls both, and renders
`<Animated.View/>`. -/
def demoFileA : TsNode :=
  .seq (.importDecl "lib-x" (some ⟨none, some (.named [("useSharedValue", false), ("withTiming", false)]), false⟩))
    (.seq (.call (.ident "useSharedValue") .empty)
      (.seq (.call (.ident "withTiming") .empty)
        (.jsx (.propAccess (.ident "Animated") "View"))))

/-- A file that renders `<Animated.View/>` without importing anything. -/
def animOnlyFile : TsNode := .jsx (.propAccess (.ident "Animated") "View")

/-- A file that imports one symbol from `react-native-reanimated` and renders
`<Animated.View/>`. -/
def reanimatedFile : TsNode :=
  .seq (.importDecl "react-native-reanimated" (some ⟨none, some (.named [("runOnJS", false)]), false⟩))
    (.jsx (.propAccess (.ident "Animated") "View"))

/-- A file with one relative and one package import, used to witness the
relative-import exclusion. -/
def mixedImportsFile : TsNode :=
  .seq (.importDecl "lib-x" (some ⟨none, some (.named [("useSharedValue", false)]), false⟩))
    (.seq (.importDecl "./local" (some ⟨none, some (.named [("helper", false)]), false⟩))
      (.importDecl "expo-haptics" (some ⟨none, some (.nspaceB "Haptics"), false⟩)))

/-- A file calling `React.useRef()` through a property access. -/
def reactUseRefFile : TsNode := .call (.propAccess (.ident "React") "useRef") .empty

/-! ## Theorems -/

/-! ### Order-theoretic facts about `chLe` -/

theorem chLe_total : ∀ (as bs : List Char), chLe as bs = true ∨ chLe bs as = true := by
  intro as
  induction as with
  | nil => intro bs; left; rfl
  | cons x xs ih =>
    intro bs
    cases bs with
    | nil => right; rfl
    | cons y ys =>
      by_cases hxy : x < y
      · left; simp [chLe, hxy]
      · by_cases hyx : y < x
        · right; simp [chLe, hyx]
        · rcases ih ys with h | h
          · left; simp [chLe, hxy, hyx, h]
          · right; simp [chLe, hxy, hyx, h]

theorem chLe_trans : ∀ (as bs cs : List Char),
    chLe as bs = true → chLe bs cs = true → chLe as cs = true := by
  intro as
  induction as with
  | nil => intro bs cs _ _; rfl
  | cons x xs ih =>
    intro bs cs h1 h2
    cases bs with
    | nil => simp [chLe] at h1
    | cons y ys =>
      cases cs with
      | nil => simp [chLe] at h2
      | cons z zs =>
        simp only [chLe] at h1 h2 ⊢
        by_cases hxy : x < y
        · by_cases hyz : y < z
          · simp [lt_trans hxy hyz]
          · by_cases hzy : z < y
            · simp [hyz, hzy] at h2
            · have hyz' : y = z := le_antisymm (le_of_not_lt hzy) (le_of_not_lt hyz)
              subst hyz'
              simp [hxy]
        · by_cases hyx : y < x
          · simp [hxy, hyx] at h1
          · have hxy' : x = y := le_antisymm (le_of_not_lt hyx) (le_of_not_lt hxy)
            subst hxy'
            simp only [hxy, if_neg hxy, if_false] at h1
            by_cases hxz : x < z
            · simp [hxz]
            · by_cases hzx : z < x
              · simp [hxz, hzx] at h2
              · simp only [hxz, hzx, if_neg hxz, if_neg hzx, if_false] at h2 ⊢
                exact ih ys zs h1 h2

theorem chLe_antisymm : ∀ (as bs : List Char),
    chLe as bs = true → chLe bs as = true → as = bs := by
  intro as
  induction as with
  | nil =>
    intro bs h1 h2
    cases bs with
    | nil => rfl
    | cons y ys => simp [chLe] at h2
  | cons x xs ih =>
    intro bs h1 h2
    cases bs with
    | nil => simp [chLe] at h1
    | cons y ys =>
      simp only [chLe] at h1 h2
      by_cases hxy : x < y
      · simp [hxy, asymm hxy] at h2
      · by_cases hyx : y < x
        · simp [hxy, hyx] at h1
        · have hxy' : x = y := le_antisymm (le_of_not_lt hyx) (le_of_not_lt hxy)
          subst hxy'
          simp only [lt_irrefl, if_false] at h1 h2
          rw [ih ys h1 h2]

/-! ### Uniqueness of the sorted file list (hash determinism) -/

theorem sorted_perm_nodup_keys_eq :
    ∀ (l₁ l₂ : List (String × String)), l₁.Perm l₂ → l₁.Sorted pRel → l₂.Sorted pRel →
      (l₁.map Prod.fst).Nodup → l₁ = l₂ := by
  intro l₁
  induction l₁ with
  | nil =>
    intro l₂ hp _ _ _
    exact hp.nil_eq
  | cons a t ih =>
    intro l₂ hp hs1 hs2 hnd
    cases l₂ with
    | nil => exact absurd hp.eq_nil (by simp)
    | cons b u =>
      have hab : a = b := by
        have ha2 : a ∈ b :: u := hp.subset (List.mem_cons_self a t)
        rcases List.mem_cons.mp ha2 with h | h
        · exact h
        · have hb1 : b ∈ a :: t := hp.symm.subset (List.mem_cons_self b u)
          rcases List.mem_cons.mp hb1 with hq | hq
          · exact hq.symm
          · exfalso
            have r1 : pRel a b := List.rel_of_sorted_cons hs1 b hq
            have r2 : pRel b a := List.rel_of_sorted_cons hs2 a h
            have hk : a.1 = b.1 := String.ext (chLe_antisymm _ _ r1 r2)
            have hmem : a.1 ∈ t.map Prod.fst := List.mem_map.mpr ⟨b, hq, hk.symm⟩
            have hnd1 : a.1 ∉ t.map Prod.fst := by
              have h0 := hnd
              simp only [List.map_cons, List.nodup_cons] at h0
              exact h0.1
            exact hnd1 hmem
      subst hab
      have ht : t = u := by
        refine ih u hp.cons_inv (List.sorted_cons.mp hs1).2 (List.sorted_cons.mp hs2).2 ?_
        have h0 := hnd
        simp only [List.map_cons, List.nodup_cons] at h0
        exact h0.2
      rw [ht]

/-- Claim C4: the hash input stream (hence `content_hash`) is invariant under
the order in which the filesystem enumerates a project's files: for any two
enumeration orders of the same set of `(relative path, content)` pairs (paths
pairwise distinct, as on a real filesystem), the streamed bytes — and hence
the digest — are identical, because the path list is sorted before hashing. -/
theorem c4_order_insensitive (l₁ l₂ : List (String × String))
    (hnd : (l₁.map Prod.fst).Nodup) (hp : l₁.Perm l₂) :
    hashStream l₁ = hashStream l₂ := by
  have h1 : (sortPairs l₁).Perm (sortPairs l₂) :=
    ((List.perm_insertionSort pRel l₁).trans hp).trans (List.perm_insertionSort pRel l₂).symm
  have hs1 : (sortPairs l₁).Sorted pRel :=
    @List.sorted_insertionSort _ pRel _
      ⟨fun a b => chLe_total a.1.data b.1.data⟩
      ⟨fun a b c => chLe_trans a.1.data b.1.data c.1.data⟩ l₁
  have hs2 : (sortPairs l₂).Sorted pRel :=
    @List.sorted_insertionSort _ pRel _
      ⟨fun a b => chLe_total a.1.data b.1.data⟩
      ⟨fun a b c => chLe_trans a.1.data b.1.data c.1.data⟩ l₂
  have hnd1 : ((sortPairs l₁).map Prod.fst).Nodup :=
    (((List.perm_insertionSort pRel l₁).map Prod.fst).nodup_iff).mpr hnd
  unfold hashStream
  rw [sorted_perm_nodup_keys_eq (sortPairs l₁) (sortPairs l₂) h1 hs1 hs2 hnd1]

/-- Witness for C4 at a concrete two-file project and a transposed
enumeration order. -/
theorem c4_witness :
    (([("b.ts", "x"), ("a.ts", "y")] : List (String × String)).map Prod.fst).Nodup
    ∧ hashStream [("b.ts", "x"), ("a.ts", "y")] = hashStream [("a.ts", "y"), ("b.ts", "x")] :=
  ⟨by decide, c4_order_insensitive _ _ (by decide) (by decide)⟩

/-- Claim C3 (code bug): renaming a file does *not* always change the hash
input stream.  `hash.update(relativePath); hash.update(content)` concatenates
path and content with no separator or length prefix, so the two-file project
`{ "a.tsb.ts" ↦ "a.tsb.tsa.ts", "a.tsb.tsa.ts" ↦ "" }` and the project
obtained from it by renaming the first file to `"b.tsa.ts"` (contents
untouched) stream exactly the same bytes and therefore get the same
`content_hash`, contradicting the claimed rename sensitivity (and the
script's own comment `Include filename in hash to detect renames`). -/
theorem c3_rename_collision :
    hashStream [("a.tsb.ts", "a.tsb.tsa.ts"), ("a.tsb.tsa.ts", "")]
      = hashStream [("b.tsa.ts", "a.tsb.tsa.ts"), ("a.tsb.tsa.ts", "")]
    ∧ ("a.tsb.ts" : String) ≠ "b.tsa.ts" := by
  constructor
  · decide
  · decide

/-! ### Set- and fold-lemmas for the aggregation -/

theorem mem_insertUniq (a x : String) (l : List String) :
    a ∈ insertUniq x l ↔ a = x ∨ a ∈ l := by
  unfold insertUniq
  split
  · rename_i hx
    constructor
    · exact fun h => Or.inr h
    · rintro (rfl | h)
      · exact hx
      · exact h
  · simp [List.mem_append, or_comm]

theorem insertUniq_nodup (x : String) (l : List String) (h : l.Nodup) :
    (insertUniq x l).Nodup := by
  unfold insertUniq
  split
  · exact h
  · rename_i hx
    simp [List.nodup_append, h, hx]

theorem mem_foldIU (xs : List String) :
    ∀ (init : List String) (a : String),
      a ∈ xs.foldl (fun l x => insertUniq x l) init ↔ a ∈ init ∨ a ∈ xs := by
  induction xs with
  | nil => intro init a; simp
  | cons x xs ih =>
    intro init a
    simp only [List.foldl_cons]
    rw [ih]
    rw [mem_insertUniq]
    simp [List.mem_cons]
    tauto

theorem foldIU_nodup (xs : List String) :
    ∀ (init : List String), init.Nodup →
      (xs.foldl (fun l x => insertUniq x l) init).Nodup := by
  induction xs with
  | nil => intro init h; exact h
  | cons x xs ih =>
    intro init h
    exact ih _ (insertUniq_nodup x init h)

theorem uniqComps_nodup (d : MetaDoc) : (uniqComps d).Nodup :=
  foldIU_nodup _ _ List.nodup_nil

theorem mem_uniqComps (d : MetaDoc) (a : String) :
    a ∈ uniqComps d ↔ a ∈ d.components.map normalizeComponentName := by
  unfold uniqComps
  rw [mem_foldIU]
  simp

theorem bumpAll_apply_nodup (m : String → Nat) (xs : List String) (Y : String)
    (h : xs.Nodup) : bumpAll m xs Y = m Y + (if Y ∈ xs then 1 else 0) := by
  induction xs generalizing m with
  | nil => simp [bumpAll]
  | cons x xs ih =>
    simp only [bumpAll, List.foldl_cons] at ih ⊢
    rw [ih _ (List.nodup_cons.mp h).2]
    rw [Function.update_apply]
    by_cases hyx : Y = x
    · subst hyx
      have : Y ∉ xs := (List.nodup_cons.mp h).1
      simp [this]
    · simp [hyx, List.mem_cons]

theorem indexAll_apply_nodup (m : String → List String) (xs : List String)
    (slug Y : String) (h : xs.Nodup) :
    indexAll m xs slug Y = m Y ++ (if Y ∈ xs then [slug] else []) := by
  induction xs generalizing m with
  | nil => simp [indexAll]
  | cons x xs ih =>
    simp only [indexAll, List.foldl_cons] at ih ⊢
    rw [ih _ (List.nodup_cons.mp h).2]
    rw [Function.update_apply]
    by_cases hyx : Y = x
    · subst hyx
      have : Y ∉ xs := (List.nodup_cons.mp h).1
      simp [this]
    · simp [hyx, List.mem_cons]

theorem fold_count (proj : MetaDoc → List String) (getF : StatsAgg → String → Nat)
    (hfield : ∀ s d, getF (foldDoc s d) = bumpAll (getF s) (proj d)) :
    ∀ (docs : List MetaDoc) (s : StatsAgg) (Y : String), (∀ d ∈ docs, (proj d).Nodup) →
      getF (docs.foldl foldDoc s) Y
        = getF s Y + (docs.filter (fun d => Y ∈ proj d)).length := by
  intro docs
  induction docs with
  | nil => intro s Y _; simp
  | cons d docs ih =>
    intro s Y hnd
    simp only [List.foldl_cons]
    rw [ih (foldDoc s d) Y (fun x hx => hnd x (List.mem_cons_of_mem d hx))]
    rw [hfield, bumpAll_apply_nodup _ _ _ (hnd d (List.mem_cons_self d docs))]
    rw [List.filter_cons]
    by_cases h : Y ∈ proj d
    · simp [h]
      omega
    · simp [h]

theorem fold_index (proj : MetaDoc → List String) (getF : StatsAgg → String → List String)
    (hfield : ∀ s d, getF (foldDoc s d) = indexAll (getF s) (proj d) d.slug) :
    ∀ (docs : List MetaDoc) (s : StatsAgg) (Y : String), (∀ d ∈ docs, (proj d).Nodup) →
      getF (docs.foldl foldDoc s) Y
        = getF s Y ++ (docs.filter (fun d => Y ∈ proj d)).map (fun d => d.slug) := by
  intro docs
  induction docs with
  | nil => intro s Y _; simp
  | cons d docs ih =>
    intro s Y hnd
    simp only [List.foldl_cons]
    rw [ih (foldDoc s d) Y (fun x hx => hnd x (List.mem_cons_of_mem d hx))]
    rw [hfield, indexAll_apply_nodup _ _ _ _ (hnd d (List.mem_cons_self d docs))]
    rw [List.filter_cons]
    by_cases h : Y ∈ proj d
    · simp [h]
    · simp [h]

/-- Counterexample to claim C1 as stated: for the `components` category the
aggregate count is keyed by *normalized* names, so for a corpus of one
document whose components array is `["Animated.View"]`, the aggregate entry
`stats.components["Animated.View"]` is `0` even though exactly one document's
components array contains `"Animated.View"` (the count is booked under
`"View"` instead). -/
theorem c1_counterexample :
    (generateStats [⟨"a", [], [], [], ["Animated.View"], [], []⟩]).components "Animated.View" = 0
    ∧ (([⟨"a", [], [], [], ["Animated.View"], [], []⟩] : List MetaDoc).filter
        (fun x => "Animated.View" ∈ x.components)).length = 1
    ∧ (generateStats [⟨"a", [], [], [], ["Animated.View"], [], []⟩]).components "View" = 1 := by
  refine ⟨by decide, by decide, by decide⟩

/-- Claim C1 as amended: for duplicate-free documents, each of the five
categories packages/hooks/functions/patterns/techniques counts, for every
value `Y`, exactly the documents whose array contains `Y`, and the four
reverse indices list exactly those documents' slugs in processing order, one
entry per document; the `components` count instead counts the documents
whose *normalized* component names include `Y`. -/
theorem c1_amended (docs : List MetaDoc) (Y : String)
    (hnd : ∀ d ∈ docs, d.packages.Nodup ∧ d.hooks.Nodup ∧ d.functions.Nodup
      ∧ d.patterns.Nodup ∧ d.techniques.Nodup) :
    (generateStats docs).packages Y = (docs.filter (fun d => Y ∈ d.packages)).length
    ∧ (generateStats docs).hooks Y = (docs.filter (fun d => Y ∈ d.hooks)).length
    ∧ (generateStats docs).functions Y = (docs.filter (fun d => Y ∈ d.functions)).length
    ∧ (generateStats docs).patterns Y = (docs.filter (fun d => Y ∈ d.patterns)).length
    ∧ (generateStats docs).techniques Y = (docs.filter (fun d => Y ∈ d.techniques)).length
    ∧ (generateStats docs).components Y
        = (docs.filter (fun d => Y ∈ d.components.map normalizeComponentName)).length
    ∧ (generateStats docs).packages_index Y
        = (docs.filter (fun d => Y ∈ d.packages)).map (fun d => d.slug)
    ∧ (generateStats docs).hooks_index Y
        = (docs.filter (fun d => Y ∈ d.hooks)).map (fun d => d.slug)
    ∧ (generateStats docs).patterns_index Y
        = (docs.filter (fun d => Y ∈ d.patterns)).map (fun d => d.slug)
    ∧ (generateStats docs).techniques_index Y
        = (docs.filter (fun d => Y ∈ d.techniques)).map (fun d => d.slug) := by
  have hcomp : (generateStats docs).components Y
      = (docs.filter (fun d => Y ∈ uniqComps d)).length := by
    have := fold_count uniqComps (fun s => s.components) (fun s d => rfl) docs initStats Y
      (fun d _ => uniqComps_nodup d)
    simpa [generateStats, initStats] using this
  refine ⟨?_, ?_, ?_, ?_, ?_, ?_, ?_, ?_, ?_, ?_⟩
  · have := fold_count (fun d => d.packages) (fun s => s.packages) (fun s d => rfl) docs
      initStats Y (fun d hd => (hnd d hd).1)
    simpa [generateStats, initStats] using this
  · have := fold_count (fun d => d.hooks) (fun s => s.hooks) (fun s d => rfl) docs
      initStats Y (fun d hd => (hnd d hd).2.1)
    simpa [generateStats, initStats] using this
  · have := fold_count (fun d => d.functions) (fun s => s.functions) (fun s d => rfl) docs
      initStats Y (fun d hd => (hnd d hd).2.2.1)
    simpa [generateStats, initStats] using this
  · have := fold_count (fun d => d.patterns) (fun s => s.patterns) (fun s d => rfl) docs
      initStats Y (fun d hd => (hnd d hd).2.2.2.1)
    simpa [generateStats, initStats] using this
  · have := fold_count (fun d => d.techniques) (fun s => s.techniques) (fun s d => rfl) docs
      initStats Y (fun d hd => (hnd d hd).2.2.2.2)
    simpa [generateStats, initStats] using this
  · rw [hcomp]
    congr 1
    apply List.filter_congr
    intro d _
    simp [mem_uniqComps]
  · have := fold_index (fun d => d.packages) (fun s => s.packages_index) (fun s d => rfl) docs
      initStats Y (fun d hd => (hnd d hd).1)
    simpa [generateStats, initStats] using this
  · have := fold_index (fun d => d.hooks) (fun s => s.hooks_index) (fun s d => rfl) docs
      initStats Y (fun d hd => (hnd d hd).2.1)
    simpa [generateStats, initStats] using this
  · have := fold_index (fun d => d.patterns) (fun s => s.patterns_index) (fun s d => rfl) docs
      initStats Y (fun d hd => (hnd d hd).2.2.2.1)
    simpa [generateStats, initStats] using this
  · have := fold_index (fun d => d.techniques) (fun s => s.techniques_index) (fun s d => rfl) docs
      initStats Y (fun d hd => (hnd d hd).2.2.2.2)
    simpa [generateStats, initStats] using this

/-- Witness for C1 (amended) on a concrete two-document corpus. -/
theorem c1_amended_witness :
    (∀ d ∈ ([⟨"a", ["p"], ["useX"], ["fn"], ["Comp"], ["pat"], ["tech"]⟩,
             ⟨"b", ["p"], [], [], [], [], []⟩] : List MetaDoc),
      d.packages.Nodup ∧ d.hooks.Nodup ∧ d.functions.Nodup ∧ d.patterns.Nodup
        ∧ d.techniques.Nodup)
    ∧ (generateStats [⟨"a", ["p"], ["useX"], ["fn"], ["Comp"], ["pat"], ["tech"]⟩,
        ⟨"b", ["p"], [], [], [], [], []⟩]).packages "p"
      = (([⟨"a", ["p"], ["useX"], ["fn"], ["Comp"], ["pat"], ["tech"]⟩,
          ⟨"b", ["p"], [], [], [], [], []⟩] : List MetaDoc).filter
          (fun d => "p" ∈ d.packages)).length :=
  ⟨by decide, (c1_amended _ "p" (by decide)).1⟩

/-- Claim C5: component names are normalized (`Touchable.` stripped, else
`Animated.` stripped, else last dotted segment) and collected into a
per-document unique set before counting, so a document containing both
`"Canvas"` and `"Touchable.Canvas"` contributes exactly one occurrence of
`"Canvas"` to the aggregate components count. -/
theorem c5_component_merge :
    normalizeComponentName "Touchable.Canvas" = "Canvas"
    ∧ normalizeComponentName "Canvas" = "Canvas"
    ∧ ∀ (docs : List MetaDoc) (d : MetaDoc),
        "Canvas" ∈ d.components → "Touchable.Canvas" ∈ d.components →
        (generateStats (docs ++ [d])).components "Canvas"
          = (generateStats docs).components "Canvas" + 1 := by
  refine ⟨by decide, by decide, ?_⟩
  intro docs d h1 _h2
  have hstep : generateStats (docs ++ [d]) = foldDoc (generateStats docs) d := by
    simp [generateStats, List.foldl_append]
  rw [hstep]
  show bumpAll (generateStats docs).components (uniqComps d) "Canvas" = _
  rw [bumpAll_apply_nodup _ _ _ (uniqComps_nodup d)]
  have hmem : "Canvas" ∈ uniqComps d := by
    rw [mem_uniqComps]
    exact List.mem_map.mpr ⟨"Canvas", h1, by decide⟩
  simp [hmem]

/-- Witness for C5 on a concrete document holding both spellings. -/
theorem c5_witness :
    ("Canvas" ∈ (⟨"a", [], [], [], ["Canvas", "Touchable.Canvas"], [], []⟩ : MetaDoc).components)
    ∧ ("Touchable.Canvas"
        ∈ (⟨"a", [], [], [], ["Canvas", "Touchable.Canvas"], [], []⟩ : MetaDoc).components)
    ∧ (generateStats [⟨"a", [], [], [], ["Canvas", "Touchable.Canvas"], [], []⟩]).components "Canvas"
      = (generateStats []).components "Canvas" + 1 :=
  ⟨by decide, by decide,
    c5_component_merge.2.2 [] ⟨"a", [], [], [], ["Canvas", "Touchable.Canvas"], [], []⟩
      (by decide) (by decide)⟩

/-! ### CallExtractor lemmas -/

theorem mem_sortStr (a : String) (l : List String) : a ∈ sortStr l ↔ a ∈ l :=
  (List.perm_insertionSort sRel l).mem_iff

theorem identCallStep_hooks (acc : CallsAcc) (n : String) :
    (identCallStep acc n).hooks
      = if strStarts n "use" = true then insertUniq n acc.hooks else acc.hooks := by
  unfold identCallStep
  by_cases hu : strStarts n "use" = true
  · simp [hu]
  · by_cases hw : strStarts n "with" = true
    · simp [hu, hw]
    · by_cases he : n ∈ EXCLUDED_FUNCTIONS
      · simp [hu, hw, he]
      · simp [hu, hw, he]

theorem propCallStep_hooks (acc : CallsAcc) (ns p : String) :
    (propCallStep acc ns p).hooks = acc.hooks := by
  unfold propCallStep
  by_cases h1 : ns = "Animated"
  · simp [h1]
  · by_cases h2 : p ∈ EXCLUDED_FUNCTIONS
    · simp [h1, h2]
    · simp [h1, h2]

theorem jsxStep_hooks (acc : CallsAcc) (t : TsNode) : (jsxStep acc t).hooks = acc.hooks := by
  cases t with
  | propAccess o r => cases o <;> simp [jsxStep]
  | ident n => simp [jsxStep]
  | call c a => simp [jsxStep]
  | jsx u => simp [jsxStep]
  | importDecl s c => simp [jsxStep]
  | seq a b => simp [jsxStep]
  | empty => simp [jsxStep]

theorem callStep_hooks_mem (acc : CallsAcc) (c : TsNode) (h : String) :
    h ∈ (callStep acc c).hooks
      ↔ h ∈ acc.hooks ∨ (h ∈ calleeIdent c ∧ strStarts h "use" = true) := by
  cases c with
  | ident n =>
    simp only [callStep, calleeIdent]
    rw [identCallStep_hooks]
    by_cases hu : strStarts n "use" = true
    · rw [if_pos hu, mem_insertUniq]
      by_cases hn : h = n
      · subst hn; simp [hu]
      · simp [hn]
    · rw [if_neg hu]
      by_cases hn : h = n
      · subst hn; simp [hu]
      · simp [hn]
  | propAccess o r =>
    cases o <;> simp [callStep, calleeIdent, propCallStep_hooks]
  | call c2 a => simp [callStep, calleeIdent]
  | jsx t => simp [callStep, calleeIdent]
  | importDecl s cl => simp [callStep, calleeIdent]
  | seq a b => simp [callStep, calleeIdent]
  | empty => simp [callStep, calleeIdent]

theorem visitCalls_hooks_mem :
    ∀ (t : TsNode) (acc : CallsAcc) (h : String),
      h ∈ (visitCalls acc t).hooks
        ↔ h ∈ acc.hooks ∨ (h ∈ identCallees t ∧ strStarts h "use" = true) := by
  intro t
  induction t with
  | ident n => intro acc h; simp [visitCalls, identCallees]
  | propAccess o p iho =>
    intro acc h
    simp only [visitCalls, identCallees]
    exact iho acc h
  | call c args ihc iha =>
    intro acc h
    simp only [visitCalls, identCallees]
    rw [iha, ihc, callStep_hooks_mem]
    simp only [List.mem_append]
    tauto
  | jsx t iht =>
    intro acc h
    simp only [visitCalls, identCallees]
    rw [iht, jsxStep_hooks]
  | importDecl s c => intro acc h; simp [visitCalls, identCallees]
  | seq a b iha ihb =>
    intro acc h
    simp only [visitCalls, identCallees]
    rw [ihb, iha]
    simp only [List.mem_append]
    tauto
  | empty => intro acc h; simp [visitCalls, identCallees]

/-- Claim C2: classification of a call with a plain-identifier callee `n`
matches the spec's chain — `use…` prefix makes it a hook (and touches nothing
else), else `with…` makes it a function even for excluded names, else an
excluded name is recorded nowhere, else it is a function; and concretely a
bare call `map()` is recorded nowhere while `Something.map()` is kept out of
the functions set by the property-name check (being recorded only in the
namespace-call map). -/
theorem c2_prefix_classification :
    (∀ (acc : CallsAcc) (n : String),
      visitCalls acc (.call (.ident n) .empty) = specIdentCallEffect acc n)
    ∧ extractCalls (.call (.ident "map") .empty) = ⟨[], [], [], []⟩
    ∧ (extractCalls (.call (.propAccess (.ident "Something") "map") .empty)).functions = []
    ∧ (extractCalls (.call (.propAccess (.ident "Something") "map") .empty)).hooks = []
    ∧ (extractCalls (.call (.propAccess (.ident "Something") "map") .empty)).components = []
    ∧ lookupA (extractCalls
        (.call (.propAccess (.ident "Something") "map") .empty)).namespaceCalls "Something"
      = some ["map"] := by
  refine ⟨fun acc n => rfl, by decide, by decide, by decide, by decide, by decide⟩

/-- Claim C10: the hooks set contains exactly the `use…`-prefixed names of
calls whose callee is a plain identifier — a property-access call like
`React.useRef()` is never classified as a hook; it contributes
`"React.useRef"` to the functions set and `(React, useRef)` to the
namespace-call map, and nothing to the hooks set. -/
theorem c10_property_access_not_hook :
    (∀ (t : TsNode) (h : String),
      h ∈ (extractCalls t).hooks ↔ h ∈ identCallees t ∧ strStarts h "use" = true)
    ∧ (extractCalls reactUseRefFile).hooks = []
    ∧ "React.useRef" ∈ (extractCalls reactUseRefFile).functions
    ∧ lookupA (extractCalls reactUseRefFile).namespaceCalls "React" = some ["useRef"] := by
  refine ⟨?_, by decide, by decide, by decide⟩
  intro t h
  have hh : (extractCalls t).hooks = sortStr (visitCalls ⟨[], [], [], []⟩ t).hooks := rfl
  rw [hh, mem_sortStr, visitCalls_hooks_mem]
  simp

/-! ### Association-list key lemmas (relative-import exclusion) -/

theorem mem_setA {β : Type} (e : String × β) :
    ∀ (m : List (String × β)) (k : String) (v : β),
      e ∈ setA m k v → e ∈ m ∨ e = (k, v) := by
  intro m
  induction m with
  | nil => intro k v he; simp only [setA, List.mem_singleton] at he; exact Or.inr he
  | cons f rest ih =>
    intro k v he
    simp only [setA] at he
    by_cases hf : f.1 = k
    · rw [if_pos hf] at he
      rcases List.mem_cons.mp he with h | h
      · exact Or.inr h
      · exact Or.inl (List.mem_cons_of_mem f h)
    · rw [if_neg hf] at he
      rcases List.mem_cons.mp he with h | h
      · exact Or.inl (h ▸ List.mem_cons_self f rest)
      · rcases ih k v h with h2 | h2
        · exact Or.inl (List.mem_cons_of_mem f h2)
        · exact Or.inr h2

theorem mem_updEntry_key (m : List (String × PkgDetail)) (k : String)
    (g : PkgDetail → PkgDetail) :
    ∀ e ∈ updEntry m k g, ∃ f ∈ m, e.1 = f.1 := by
  intro e he
  unfold updEntry at he
  rcases List.mem_map.mp he with ⟨f, hf, hfe⟩
  refine ⟨f, hf, ?_⟩
  by_cases h : f.1 = k
  · rw [← hfe]; simp [h]
  · rw [← hfe]; simp [h]

theorem foldl_keys_sub {α : Type} (step : List (String × PkgDetail) → α → List (String × PkgDetail))
    (hstep : ∀ m x e, e ∈ step m x → ∃ f ∈ m, e.1 = f.1) :
    ∀ (xs : List α) (m : List (String × PkgDetail)) (e : String × PkgDetail),
      e ∈ xs.foldl step m → ∃ f ∈ m, e.1 = f.1 := by
  intro xs
  induction xs with
  | nil => intro m e he; exact ⟨e, he, rfl⟩
  | cons x xs ih =>
    intro m e he
    simp only [List.foldl_cons] at he
    rcases ih _ e he with ⟨f, hf, hef⟩
    rcases hstep m x f hf with ⟨g, hg, hfg⟩
    exact ⟨g, hg, hef.trans hfg⟩

theorem hookStep_keys (itp : List (String × String)) :
    ∀ (m : List (String × PkgDetail)) (h : String) (e : String × PkgDetail),
      e ∈ hookStep itp m h → ∃ f ∈ m, e.1 = f.1 := by
  intro m h e he
  unfold hookStep at he
  cases hl : lookupA itp h with
  | none => rw [hl] at he; exact ⟨e, he, rfl⟩
  | some pkg => rw [hl] at he; exact mem_updEntry_key _ _ _ e he

theorem fnStep_keys (itp : List (String × String)) :
    ∀ (m : List (String × PkgDetail)) (h : String) (e : String × PkgDetail),
      e ∈ fnStep itp m h → ∃ f ∈ m, e.1 = f.1 := by
  intro m h e he
  unfold fnStep at he
  cases hl : lookupA itp h with
  | none => rw [hl] at he; exact ⟨e, he, rfl⟩
  | some pkg => rw [hl] at he; exact mem_updEntry_key _ _ _ e he

theorem nsStep_keys (ntp : List (String × String)) :
    ∀ (m : List (String × PkgDetail)) (x : String × List String) (e : String × PkgDetail),
      e ∈ nsStep ntp m x → ∃ f ∈ m, e.1 = f.1 := by
  intro m x e he
  unfold nsStep at he
  cases hl : lookupA ntp x.1 with
  | none => rw [hl] at he; exact ⟨e, he, rfl⟩
  | some pkg =>
    rw [hl] at he
    exact foldl_keys_sub _ (fun m fn f hf => mem_updEntry_key _ _ _ f hf) x.2 m e he

theorem compStep_keys (itp : List (String × String)) :
    ∀ (m : List (String × PkgDetail)) (c : String) (e : String × PkgDetail),
      e ∈ compStep itp m c → ∃ f ∈ m, e.1 = f.1 := by
  intro m c e he
  unfold compStep at he
  by_cases hc : strStarts c "Animated." = true
  · rw [if_pos hc] at he; exact mem_updEntry_key _ _ _ e he
  · rw [if_neg hc] at he
    cases hl : lookupA itp c with
    | none => rw [hl] at he; exact ⟨e, he, rfl⟩
    | some pkg => rw [hl] at he; exact mem_updEntry_key _ _ _ e he

theorem pd0_key_not_relative (NI : List (String × List String)) :
    ∀ (packages : List String) (m : List (String × PkgDetail)),
      (∀ e ∈ m, strStarts e.1 "." = false ∧ strStarts e.1 "/" = false) →
      ∀ e ∈ packages.foldl
        (fun m pkg =>
          if strStarts pkg "." || strStarts pkg "/" then m
          else setA m pkg ⟨(lookupA NI pkg).getD [], [], [], []⟩)
        m,
        strStarts e.1 "." = false ∧ strStarts e.1 "/" = false := by
  intro packages
  induction packages with
  | nil => intro m hm e he; exact hm e he
  | cons p ps ih =>
    intro m hm e he
    simp only [List.foldl_cons] at he
    refine ih _ ?_ e he
    intro f hf
    by_cases hp : (strStarts p "." || strStarts p "/") = true
    · rw [if_pos hp] at hf
      exact hm f hf
    · rw [if_neg hp] at hf
      simp only [Bool.or_eq_true, not_or, Bool.not_eq_true] at hp
      rcases mem_setA f m p _ hf with h | h
      · exact hm f h
      · rw [h]
        exact hp

/-- Claim C6: relative module specifiers (starting with `.` or `/`) never
appear in the emitted `packages` array, nor as keys of `namedImports`,
`namespaceImports` or `packages_detail`, whatever the source files import. -/
theorem c6_relative_exclusion (files : List TsNode) :
    (∀ p ∈ (analyzeAnimation files).packages,
      strStarts p "." = false ∧ strStarts p "/" = false)
    ∧ (∀ e ∈ (analyzeAnimation files).namedImports,
      strStarts e.1 "." = false ∧ strStarts e.1 "/" = false)
    ∧ (∀ e ∈ (analyzeAnimation files).namespaceImports,
      strStarts e.1 "." = false ∧ strStarts e.1 "/" = false)
    ∧ (∀ e ∈ (analyzeAnimation files).packages_detail,
      strStarts e.1 "." = false ∧ strStarts e.1 "/" = false) := by
  have hpkg : ∀ p ∈ (analyzeAnimation files).packages,
      strStarts p "." = false ∧ strStarts p "/" = false := by
    intro p hp
    have hp2 : p ∈ (files.foldl aggFile ⟨[], [], [], [], [], [], []⟩).packages.filter
        (fun p => !(strStarts p ".") && !(strStarts p "/")) := by
      rw [← mem_sortStr]
      exact hp
    have := (List.mem_filter.mp hp2).2
    simp only [Bool.and_eq_true, Bool.not_eq_true'] at this
    exact this
  refine ⟨hpkg, ?_, ?_, ?_⟩
  · intro e he
    have he2 : e ∈ (files.foldl aggFile ⟨[], [], [], [], [], [], []⟩).namedImports.filterMap
        (fun e => if strStarts e.1 "." || strStarts e.1 "/" then none
          else some (e.1, sortStr e.2)) := he
    rcases List.mem_filterMap.mp he2 with ⟨a, _, hfa⟩
    by_cases hc : (strStarts a.1 "." || strStarts a.1 "/") = true
    · rw [if_pos hc] at hfa; exact absurd hfa (by simp)
    · rw [if_neg hc] at hfa
      have he1 : e.1 = a.1 := by rw [← Option.some.inj hfa]
      simp only [Bool.or_eq_true, not_or, Bool.not_eq_true] at hc
      rw [he1]
      exact hc
  · intro e he
    have he2 : e ∈ (files.foldl aggFile ⟨[], [], [], [], [], [], []⟩).namespaceImports.filterMap
        (fun e => if strStarts e.1 "." || strStarts e.1 "/" then none
          else some (e.1, sortStr e.2)) := he
    rcases List.mem_filterMap.mp he2 with ⟨a, _, hfa⟩
    by_cases hc : (strStarts a.1 "." || strStarts a.1 "/") = true
    · rw [if_pos hc] at hfa; exact absurd hfa (by simp)
    · rw [if_neg hc] at hfa
      have he1 : e.1 = a.1 := by rw [← Option.some.inj hfa]
      simp only [Bool.or_eq_true, not_or, Bool.not_eq_true] at hc
      rw [he1]
      exact hc
  · intro e he
    have he2 : e ∈ categorizeByPackage
        (analyzeAnimation files).packages
        (analyzeAnimation files).namedImports
        (analyzeAnimation files).namespaceImports
        (analyzeAnimation files).namespaceCalls
        (analyzeAnimation files).hooks
        (analyzeAnimation files).functions
        (analyzeAnimation files).components := he
    unfold categorizeByPackage at he2
    rcases foldl_keys_sub _ (compStep_keys _) _ _ e he2 with ⟨f3, hf3, hef3⟩
    rcases foldl_keys_sub _ (nsStep_keys _) _ _ f3 hf3 with ⟨f2, hf2, hf32⟩
    rcases foldl_keys_sub _ (fnStep_keys _) _ _ f2 hf2 with ⟨f1, hf1, hf21⟩
    rcases foldl_keys_sub _ (hookStep_keys _) _ _ f1 hf1 with ⟨f0, hf0, hf10⟩
    have h0 := pd0_key_not_relative _ _ [] (by simp) f0 hf0
    rw [hef3, hf32, hf21, hf10]
    exact h0

/-- Witness for C6 on a project with one relative and two package imports. -/
theorem c6_witness :
    ("lib-x" ∈ (analyzeAnimation [mixedImportsFile]).packages)
    ∧ strStarts "lib-x" "." = false ∧ strStarts "lib-x" "/" = false :=
  ⟨by decide, (c6_relative_exclusion [mixedImportsFile]).1 "lib-x" (by decide)⟩

/-! ### Package-attribution lemmas (Animated components) -/

theorem lookupA_updEntry (m : List (String × PkgDetail)) (k : String)
    (g : PkgDetail → PkgDetail) (q : String) :
    lookupA (updEntry m k g) q
      = if q = k then (lookupA m k).map g else lookupA m q := by
  induction m with
  | nil =>
    by_cases hq : q = k <;> simp [updEntry, lookupA, hq]
  | cons e rest ih =>
    simp only [updEntry, List.map_cons] at ih ⊢
    by_cases hek : e.1 = k
    · by_cases hqk : q = k
      · subst hqk
        simp [lookupA, hek]
      · have heq : ¬ e.1 = q := fun h => hqk (h.symm.trans hek)
        simp only [lookupA, if_pos hek, if_neg heq, if_neg hqk]
        rw [ih, if_neg hqk]
    · by_cases heq : e.1 = q
      · have hqk : ¬ q = k := fun h => hek (heq.trans h)
        simp [lookupA, hek, heq, hqk]
      · simp only [lookupA, if_neg hek, if_neg heq]
        rw [ih]

theorem lookupA_setA {β : Type} :
    ∀ (m : List (String × β)) (k : String) (v : β) (q : String),
      lookupA (setA m k v) q = if q = k then some v else lookupA m q := by
  intro m
  induction m with
  | nil =>
    intro k v q
    simp only [setA, lookupA]
    by_cases hq : q = k
    · subst hq; simp
    · rw [if_neg (fun h => hq h.symm), if_neg hq]
  | cons e rest ih =>
    intro k v q
    simp only [setA]
    by_cases hek : e.1 = k
    · rw [if_pos hek]
      by_cases hqk : q = k
      · subst hqk
        simp [lookupA]
      · have heq : ¬ e.1 = q := fun h => hqk (h.symm.trans hek)
        simp only [lookupA]
        rw [if_neg (fun h : k = q => hqk h.symm), if_neg hqk, if_neg heq]
    · rw [if_neg hek]
      simp only [lookupA]
      by_cases heq : e.1 = q
      · have hqk : ¬ q = k := fun h => hek (heq.trans h)
        rw [if_pos heq, if_neg hqk, if_pos heq]
      · rw [if_neg heq, ih, if_neg heq]

theorem pd0_components_empty (NI : List (String × List String)) :
    ∀ (packages : List String) (m : List (String × PkgDetail)),
      (∀ pkg d, lookupA m pkg = some d → d.components = []) →
      ∀ pkg d,
        lookupA (packages.foldl
          (fun m pkg =>
            if strStarts pkg "." || strStarts pkg "/" then m
            else setA m pkg ⟨(lookupA NI pkg).getD [], [], [], []⟩)
          m) pkg = some d → d.components = [] := by
  intro packages
  induction packages with
  | nil => intro m hm pkg d hl; exact hm pkg d hl
  | cons p ps ih =>
    intro m hm pkg d hl
    simp only [List.foldl_cons] at hl
    refine ih _ ?_ pkg d hl
    intro pkg2 d2 hl2
    by_cases hp : (strStarts p "." || strStarts p "/") = true
    · rw [if_pos hp] at hl2
      exact hm pkg2 d2 hl2
    · rw [if_neg hp] at hl2
      rw [lookupA_setA] at hl2
      by_cases hq : pkg2 = p
      · rw [if_pos hq] at hl2
        rw [← Option.some.inj hl2]
      · rw [if_neg hq] at hl2
        exact hm pkg2 d2 hl2

theorem foldl_components_at {α : Type}
    (step : List (String × PkgDetail) → α → List (String × PkgDetail))
    (hstep : ∀ m x pkg,
      (lookupA (step m x) pkg).map (fun d => d.components)
        = (lookupA m pkg).map (fun d => d.components)) :
    ∀ (xs : List α) (m : List (String × PkgDetail)) (pkg : String),
      (lookupA (xs.foldl step m) pkg).map (fun d => d.components)
        = (lookupA m pkg).map (fun d => d.components) := by
  intro xs
  induction xs with
  | nil => intro m pkg; rfl
  | cons x xs ih =>
    intro m pkg
    simp only [List.foldl_cons]
    rw [ih, hstep]

theorem hookStep_components_at (itp : List (String × String)) :
    ∀ m h pkg,
      (lookupA (hookStep itp m h) pkg).map (fun d => d.components)
        = (lookupA m pkg).map (fun d => d.components) := by
  intro m h pkg
  unfold hookStep
  cases hl : lookupA itp h with
  | none => rfl
  | some pkg2 =>
    rw [lookupA_updEntry]
    by_cases hq : pkg = pkg2
    · rw [if_pos hq, hq]
      cases lookupA m pkg2 <;> rfl
    · rw [if_neg hq]

theorem fnStep_components_at (itp : List (String × String)) :
    ∀ m h pkg,
      (lookupA (fnStep itp m h) pkg).map (fun d => d.components)
        = (lookupA m pkg).map (fun d => d.components) := by
  intro m h pkg
  unfold fnStep
  cases hl : lookupA itp h with
  | none => rfl
  | some pkg2 =>
    rw [lookupA_updEntry]
    by_cases hq : pkg = pkg2
    · rw [if_pos hq, hq]
      cases lookupA m pkg2 <;> simp
    · rw [if_neg hq]

theorem nsStep_components_at (ntp : List (String × String)) :
    ∀ m x pkg,
      (lookupA (nsStep ntp m x) pkg).map (fun d => d.components)
        = (lookupA m pkg).map (fun d => d.components) := by
  intro m x pkg
  unfold nsStep
  cases hl : lookupA ntp x.1 with
  | none => rfl
  | some pkg2 =>
    refine foldl_components_at _ ?_ x.2 m pkg
    intro m2 fn q
    rw [lookupA_updEntry]
    by_cases hq : q = pkg2
    · rw [if_pos hq, hq]
      cases lookupA m2 pkg2 with
      | none => rfl
      | some d => by_cases hfn : fn ∈ d.functions <;> simp [hfn]
    · rw [if_neg hq]

theorem comps_fold_sound (itp : List (String × String)) :
    ∀ (C : List String) (m : List (String × PkgDetail)) (pkg : String) (d : PkgDetail)
      (x : String),
      lookupA (C.foldl (compStep itp) m) pkg = some d → x ∈ d.components →
      strStarts x "Animated." = true → pkg ≠ "react-native-reanimated" →
      ∃ d0, lookupA m pkg = some d0 ∧ x ∈ d0.components := by
  intro C
  induction C with
  | nil => intro m pkg d x hl hx _ _; exact ⟨d, hl, hx⟩
  | cons c C ih =>
    intro m pkg d x hl hx hsw hpkg
    simp only [List.foldl_cons] at hl
    rcases ih _ pkg d x hl hx hsw hpkg with ⟨d1, hd1, hx1⟩
    unfold compStep at hd1
    by_cases hc : strStarts c "Animated." = true
    · rw [if_pos hc, lookupA_updEntry, if_neg hpkg] at hd1
      exact ⟨d1, hd1, hx1⟩
    · rw [if_neg hc] at hd1
      cases hitp : lookupA itp c with
      | none => rw [hitp] at hd1; exact ⟨d1, hd1, hx1⟩
      | some pkg2 =>
        rw [hitp, lookupA_updEntry] at hd1
        by_cases hpp : pkg = pkg2
        · rw [if_pos hpp] at hd1
          cases hm : lookupA m pkg2 with
          | none => rw [hm] at hd1; exact absurd hd1 (by simp)
          | some d0 =>
            rw [hm] at hd1
            have hd1e : ({ d0 with components := d0.components ++ [c] } : PkgDetail) = d1 :=
              Option.some.inj hd1
            refine ⟨d0, by rw [hpp]; exact hm, ?_⟩
            rw [← hd1e] at hx1
            simp only [List.mem_append, List.mem_singleton] at hx1
            rcases hx1 with h | h
            · exact h
            · subst h
              exact absurd hsw hc
        · rw [if_neg hpp] at hd1
          exact ⟨d1, hd1, hx1⟩

theorem compStep_mono (itp : List (String × String)) (m : List (String × PkgDetail))
    (c pkg : String) (d0 : PkgDetail) (h : lookupA m pkg = some d0) :
    ∃ d1, lookupA (compStep itp m c) pkg = some d1 ∧ ∀ x ∈ d0.components, x ∈ d1.components := by
  unfold compStep
  by_cases hc : strStarts c "Animated." = true
  · rw [if_pos hc]
    rw [lookupA_updEntry]
    by_cases hp : pkg = "react-native-reanimated"
    · rw [if_pos hp, ← hp, h]
      refine ⟨_, rfl, ?_⟩
      intro x hx
      simp [hx]
    · rw [if_neg hp]
      exact ⟨d0, h, fun x hx => hx⟩
  · rw [if_neg hc]
    cases hitp : lookupA itp c with
    | none => exact ⟨d0, h, fun x hx => hx⟩
    | some pkg2 =>
      rw [lookupA_updEntry]
      by_cases hp : pkg = pkg2
      · rw [if_pos hp, ← hp, h]
        refine ⟨_, rfl, ?_⟩
        intro x hx
        simp [hx]
      · rw [if_neg hp]
        exact ⟨d0, h, fun x hx => hx⟩

theorem comps_fold_persist (itp : List (String × String)) :
    ∀ (C : List String) (m : List (String × PkgDetail)) (pkg : String)
      (d0 d : PkgDetail) (x : String),
      lookupA m pkg = some d0 → x ∈ d0.components →
      lookupA (C.foldl (compStep itp) m) pkg = some d → x ∈ d.components := by
  intro C
  induction C with
  | nil =>
    intro m pkg d0 d x h0 hx hl
    rw [List.foldl_nil] at hl
    rw [← Option.some.inj (h0.symm.trans hl)]
    exact hx
  | cons c C ih =>
    intro m pkg d0 d x h0 hx hl
    simp only [List.foldl_cons] at hl
    rcases compStep_mono itp m c pkg d0 h0 with ⟨d1, hd1, hsub⟩
    exact ih _ pkg d1 d x hd1 (hsub x hx) hl

theorem compStep_lookup_isSome (itp : List (String × String))
    (m : List (String × PkgDetail)) (c pkg : String) :
    (lookupA (compStep itp m c) pkg).isSome = (lookupA m pkg).isSome := by
  unfold compStep
  by_cases hc : strStarts c "Animated." = true
  · rw [if_pos hc, lookupA_updEntry]
    by_cases hp : pkg = "react-native-reanimated"
    · rw [if_pos hp, hp]
      cases lookupA m "react-native-reanimated" <;> rfl
    · rw [if_neg hp]
  · rw [if_neg hc]
    cases hitp : lookupA itp c with
    | none => rfl
    | some pkg2 =>
      rw [lookupA_updEntry]
      by_cases hp : pkg = pkg2
      · rw [if_pos hp, hp]
        cases lookupA m pkg2 <;> rfl
      · rw [if_neg hp]

theorem comps_fold_isSome (itp : List (String × String)) :
    ∀ (C : List String) (m : List (String × PkgDetail)) (pkg : String),
      (lookupA (C.foldl (compStep itp) m) pkg).isSome = (lookupA m pkg).isSome := by
  intro C
  induction C with
  | nil => intro m pkg; rfl
  | cons c C ih =>
    intro m pkg
    simp only [List.foldl_cons]
    rw [ih, compStep_lookup_isSome]

theorem comps_fold_complete (itp : List (String × String)) :
    ∀ (C : List String) (m : List (String × PkgDetail)) (x : String) (d : PkgDetail),
      x ∈ C → strStarts x "Animated." = true →
      lookupA (C.foldl (compStep itp) m) "react-native-reanimated" = some d →
      x ∈ d.components := by
  intro C
  induction C with
  | nil => intro m x d hx _ _; exact absurd hx (List.not_mem_nil x)
  | cons c C ih =>
    intro m x d hx hsw hl
    simp only [List.foldl_cons] at hl
    rcases List.mem_cons.mp hx with rfl | hx2
    · -- the head is x itself: it is pushed now (the entry must exist) and persists
      cases hm : lookupA m "react-native-reanimated" with
      | none =>
        -- no entry: then no entry survives the fold either, contradicting hl
        exfalso
        have h1 : (lookupA (C.foldl (compStep itp) (compStep itp m x))
            "react-native-reanimated").isSome = false := by
          rw [comps_fold_isSome, compStep_lookup_isSome, hm]
          rfl
        rw [hl] at h1
        exact absurd h1 (by simp)
      | some d0 =>
        have hstep : lookupA (compStep itp m x) "react-native-reanimated"
            = some { d0 with components := d0.components ++ [x] } := by
          unfold compStep
          rw [if_pos hsw, lookupA_updEntry, if_pos rfl, hm]
          rfl
        refine comps_fold_persist itp C _ "react-native-reanimated" _ d x hstep ?_ hl
        simp
    · exact ih (compStep itp m c) x d hx2 hsw hl

theorem m123_components_empty (itp ntp : List (String × String)) (H F : List String)
    (NSC : List (String × List String)) (m0 : List (String × PkgDetail))
    (h0 : ∀ pkg d, lookupA m0 pkg = some d → d.components = []) :
    ∀ pkg d,
      lookupA (NSC.foldl (nsStep ntp) (F.foldl (fnStep itp) (H.foldl (hookStep itp) m0))) pkg
        = some d → d.components = [] := by
  intro pkg d hl
  have h3 := foldl_components_at _ (nsStep_components_at ntp) NSC
    (F.foldl (fnStep itp) (H.foldl (hookStep itp) m0)) pkg
  have h2 := foldl_components_at _ (fnStep_components_at itp) F
    (H.foldl (hookStep itp) m0) pkg
  have h1 := foldl_components_at _ (hookStep_components_at itp) H m0 pkg
  rw [hl] at h3
  rw [h2, h1] at h3
  cases hm0 : lookupA m0 pkg with
  | none => rw [hm0] at h3; exact absurd h3 (by simp)
  | some dI =>
    rw [hm0] at h3
    simp only [Option.map] at h3
    rw [Option.some.inj h3]
    exact h0 pkg dI hm0

theorem categorize_core (itp : List (String × String)) (C : List String)
    (m3 : List (String × PkgDetail)) (comp pkg : String) (d : PkgDetail)
    (hsw : strStarts comp "Animated." = true) (hc : comp ∈ C)
    (hempty : ∀ pkg d, lookupA m3 pkg = some d → d.components = [])
    (hl : lookupA (C.foldl (compStep itp) m3) pkg = some d) :
    comp ∈ d.components ↔ pkg = "react-native-reanimated" := by
  constructor
  · intro hmem
    by_contra hpkg
    rcases comps_fold_sound itp C m3 pkg d comp hl hmem hsw hpkg with ⟨d0, hd0, hx0⟩
    rw [hempty pkg d0 hd0] at hx0
    exact absurd hx0 (List.not_mem_nil comp)
  · intro hpkg
    subst hpkg
    exact comps_fold_complete itp C m3 comp d hc hsw hl

/-- Counterexample to claim C7 as stated: a project that renders
`<Animated.View/>` without importing `react-native-reanimated` has the
component in its components array, but `packages_detail` is empty, so the
component is attributed to no package at all — it is not appended to a
`react-native-reanimated` components list, because no such entry exists. -/
theorem c7_counterexample :
    ("Animated.View" ∈ (analyzeAnimation [animOnlyFile]).components)
    ∧ strStarts "Animated.View" "Animated." = true
    ∧ (analyzeAnimation [animOnlyFile]).packages_detail = [] := by
  refine ⟨by decide, by decide, by decide⟩

/-- Claim C7 as amended: an `Animated.`-qualified component in the extracted
components is attributed to `react-native-reanimated` and to no other
package — for every `packages_detail` entry, the component appears in that
entry's components list exactly when the entry is the fixed
`react-native-reanimated` one (so the import lookup is bypassed); when the
project does not import `react-native-reanimated` the component is simply not
attributed anywhere. -/
theorem c7_amended (files : List TsNode) (comp pkg : String) (d : PkgDetail)
    (hsw : strStarts comp "Animated." = true)
    (hmem : comp ∈ (analyzeAnimation files).components)
    (hlook : lookupA (analyzeAnimation files).packages_detail pkg = some d) :
    comp ∈ d.components ↔ pkg = "react-native-reanimated" := by
  have e1 : (analyzeAnimation files).packages_detail
      = categorizeByPackage (analyzeAnimation files).packages
          (analyzeAnimation files).namedImports
          (analyzeAnimation files).namespaceImports
          (analyzeAnimation files).namespaceCalls
          (analyzeAnimation files).hooks
          (analyzeAnimation files).functions
          (analyzeAnimation files).components := rfl
  rw [e1] at hlook
  unfold categorizeByPackage at hlook
  refine categorize_core _ _ _ comp pkg d hsw hmem ?_ hlook
  refine m123_components_empty _ _ _ _ _ _ ?_
  refine pd0_components_empty _ _ [] ?_
  intro pkg2 d2 h2
  exact absurd h2 (by simp [lookupA])

/-- Witness for C7 (amended) on a project that imports
`react-native-reanimated` and renders `<Animated.View/>`. -/
theorem c7_witness :
    ("Animated.View"
        ∈ (⟨["runOnJS"], [], [], ["Animated.View"]⟩ : PkgDetail).components)
      ↔ ("react-native-reanimated" : String) = "react-native-reanimated" :=
  c7_amended [reanimatedFile] "Animated.View" "react-native-reanimated"
    ⟨["runOnJS"], [], [], ["Animated.View"]⟩ (by decide) (by decide) (by decide)

/-- Claim C9: the `demo-a` scenario.  For a project with one file importing
`{ useSharedValue, withTiming }` from `lib-x`, calling both, and rendering
`<Animated.View/>`, the extracted document has exactly the claimed hooks,
functions, components and packages, `packages_detail["lib-x"]` attributes the
hook and the function to `lib-x`, and the patterns include both
`"shared-value-state"` and `"timing-animation"`. -/
theorem c9_scenario :
    (analyzeAnimation [demoFileA]).hooks = ["useSharedValue"]
    ∧ (analyzeAnimation [demoFileA]).functions = ["withTiming"]
    ∧ (analyzeAnimation [demoFileA]).components = ["Animated.View"]
    ∧ (analyzeAnimation [demoFileA]).packages = ["lib-x"]
    ∧ (lookupA (analyzeAnimation [demoFileA]).packages_detail "lib-x").map (fun d => d.hooks)
      = some ["useSharedValue"]
    ∧ (lookupA (analyzeAnimation [demoFileA]).packages_detail "lib-x").map (fun d => d.functions)
      = some ["withTiming"]
    ∧ "shared-value-state" ∈ (analyzeAnimation [demoFileA]).patterns
    ∧ "timing-animation" ∈ (analyzeAnimation [demoFileA]).patterns := by
  refine ⟨by decide, by decide, by decide, by decide, by decide, by decide, by decide, by decide⟩

/-! ### FileStructureClassifier lemmas -/

theorem getLast?_cons_ne_none (b : String) (l2 : List String) : (b :: l2).getLast? ≠ none := by
  induction l2 generalizing b with
  | nil => simp [List.getLast?]
  | cons c l3 ih => rw [List.getLast?_cons_cons]; exact ih c

theorem foldl_choice_last :
    ∀ (l : List String) (o : Option String),
      l.foldl (fun _ p => some p) o
        = match l.getLast? with
          | some p => some p
          | none => o := by
  intro l
  induction l with
  | nil => intro o; rfl
  | cons a l ih =>
    intro o
    simp only [List.foldl_cons]
    rw [ih (some a)]
    cases l with
    | nil => rfl
    | cons b l2 =>
      rw [List.getLast?_cons_cons]
      cases h : (b :: l2).getLast? with
      | none => exact absurd h (getLast?_cons_ne_none b l2)
      | some q => rfl

theorem analyzeFS_fold :
    ∀ (files : List String) (st : FileStructure),
      (files.foldl classifyStep st).entry
        = (files.filter (fun p => fileCategory p == FileCat.entry)).foldl
            (fun _ p => some p) st.entry
      ∧ (files.foldl classifyStep st).components
        = st.components ++ files.filter (fun p => fileCategory p == FileCat.components)
      ∧ (files.foldl classifyStep st).hooks
        = st.hooks ++ files.filter (fun p => fileCategory p == FileCat.hooks)
      ∧ (files.foldl classifyStep st).utils
        = st.utils ++ files.filter (fun p => fileCategory p == FileCat.utils)
      ∧ (files.foldl classifyStep st).types
        = st.types ++ files.filter (fun p => fileCategory p == FileCat.types)
      ∧ (files.foldl classifyStep st).constants
        = st.constants ++ files.filter (fun p => fileCategory p == FileCat.constants)
      ∧ (files.foldl classifyStep st).other
        = st.other ++ files.filter (fun p => fileCategory p == FileCat.other)
      ∧ (files.foldl classifyStep st).assets = st.assets := by
  intro files
  induction files with
  | nil =>
    intro st
    simp
  | cons p files ih =>
    intro st
    simp only [List.foldl_cons, List.filter_cons]
    have hstep := ih (classifyStep st p)
    cases hc : fileCategory p <;>
      simp only [classifyStep, hc] at hstep ⊢ <;>
      simp [hstep.1, hstep.2.1, hstep.2.2.1, hstep.2.2.2.1, hstep.2.2.2.2.1,
        hstep.2.2.2.2.2.1, hstep.2.2.2.2.2.2.1, hstep.2.2.2.2.2.2.2]

/-- Counterexample to claim C8 as stated: rule (5) of the implementation
tests the filename for the substring `"types.ts"`, not `"types"`.  The file
`foo/typesHelper.js` (directory `foo`, filename containing `"types"` but not
`"types.ts"`) is put in `other` by the code, while the claim's rule chain
assigns it to `types`. -/
theorem c8_counterexample :
    claimC8Category "foo/typesHelper.js" = FileCat.types
    ∧ fileCategory "foo/typesHelper.js" = FileCat.other
    ∧ (analyzeFileStructure ["foo/typesHelper.js"]).types = []
    ∧ (analyzeFileStructure ["foo/typesHelper.js"]).other = ["foo/typesHelper.js"] := by
  refine ⟨by decide, by decide, by decide, by decide⟩

/-- Claim C8 as amended: every discovered file is assigned the category of
the first matching rule in the fixed priority order (1) `index.tsx`/`index.ts`
→ entry, (2) directory contains "components" or file at project root →
components, (3) directory contains "hooks" → hooks, (4) directory contains
"utils" → utils, (5) directory contains "types" or *filename contains
"types.ts"* → types, (6) directory contains "constants" or *filename
contains "constants.ts"* → constants, (7) otherwise other — and
`analyzeFileStructure` groups the files accordingly, in enumeration order,
with `entry` holding the last entry file. -/
theorem c8_amended (files : List String) :
    (analyzeFileStructure files).entry
      = (files.filter (fun p => fileCategory p == FileCat.entry)).getLast?
    ∧ (analyzeFileStructure files).components
      = files.filter (fun p => fileCategory p == FileCat.components)
    ∧ (analyzeFileStructure files).hooks
      = files.filter (fun p => fileCategory p == FileCat.hooks)
    ∧ (analyzeFileStructure files).utils
      = files.filter (fun p => fileCategory p == FileCat.utils)
    ∧ (analyzeFileStructure files).types
      = files.filter (fun p => fileCategory p == FileCat.types)
    ∧ (analyzeFileStructure files).constants
      = files.filter (fun p => fileCategory p == FileCat.constants)
    ∧ (analyzeFileStructure files).other
      = files.filter (fun p => fileCategory p == FileCat.other)
    ∧ (analyzeFileStructure files).assets = [] := by
  have h := analyzeFS_fold files ⟨none, [], [], [], [], [], [], []⟩
  refine ⟨?_, ?_, ?_, ?_, ?_, ?_, ?_, ?_⟩
  · rw [show (analyzeFileStructure files).entry
        = (files.foldl classifyStep ⟨none, [], [], [], [], [], [], []⟩).entry from rfl, h.1,
      foldl_choice_last]
    cases (files.filter (fun p => fileCategory p == FileCat.entry)).getLast? <;> rfl
  · exact h.2.1
  · exact h.2.2.1
  · exact h.2.2.2.1
  · exact h.2.2.2.2.1
  · exact h.2.2.2.2.2.1
  · exact h.2.2.2.2.2.2.1
  · exact h.2.2.2.2.2.2.2
